import Mathlib

/-!
Shallow embedding of the Bitcoin transaction codec in `src/lib.rs`:
CompactSize, Txid, OutPoint, Script, TransactionInput, BitcoinTransaction,
their `to_bytes` / `from_bytes` operations, and the Txid hex text
serialization.

Byte slices are modelled as `List Nat` whose members are < 256 (`bytesWF`);
machine integers are `Nat` with explicit bounds.  The target is 64-bit, so
`usize` arithmetic overflows at `USIZE = 2 ^ 64`.  A decode that in Rust
would panic (arithmetic overflow in debug mode, out-of-range slice index in
release mode) is modelled by the `DResult.panic` outcome: it returns
neither a value nor an error.
-/

/-- `usize::MAX + 1` on the 64-bit target. -/
def USIZE : Nat := 2 ^ 64

/-- The two error kinds of the codec (Rust `enum BitcoinError`). -/
inductive BitcoinError where
  | insufficientBytes
  | invalidFormat
deriving DecidableEq

/-- Outcome of a Rust decoder of type `fn(&[u8]) -> Result<(T, usize), BitcoinError>`:
`ok val consumed` for `Ok((val, consumed))`, `err e` for `Err(e)`, and `panic`
when the Rust call panics instead of returning. -/
inductive DResult (α : Type) where
  | ok (val : α) (consumed : Nat)
  | err (e : BitcoinError)
  | panic
deriving DecidableEq

/-- Little-endian encoding of `v` into exactly `w` bytes: Rust
`to_le_bytes`, with the truncation the casts `as u16` / `as u32` perform
built in (only the low `8 * w` bits are kept). -/
def toLE : Nat → Nat → List Nat
  | 0, _ => []
  | w + 1, v => v % 256 :: toLE w (v / 256)

/-- Little-endian reading of a byte list: Rust `uNN::from_le_bytes`. -/
def fromLE : List Nat → Nat
  | [] => 0
  | b :: rest => b + 256 * fromLE rest

/-- Every member is a byte value (the `u8` content type of a Rust slice). -/
def bytesWF (l : List Nat) : Prop := ∀ b ∈ l, b < 256

instance (l : List Nat) : Decidable (bytesWF l) := List.decidableBAll _ l

/-- Rust `struct CompactSize { value: u64 }`. -/
structure CompactSize where
  value : Nat
deriving DecidableEq

/-- The `u64` bound of the `value` field. -/
def CompactSize.WF (cs : CompactSize) : Prop := cs.value < 2 ^ 64

instance (cs : CompactSize) : Decidable cs.WF := inferInstanceAs (Decidable (_ < _))

/-- `CompactSize::to_bytes`.  `value as u8` is written `value % 256`
(the branch guard `value ≤ 0xFC` makes the cast lossless). -/
def CompactSize.to_bytes (cs : CompactSize) : List Nat :=
  let value := cs.value
  if value ≤ 0xFC then [value % 256]
  else if value ≤ 0xFFFF then 0xFD :: toLE 2 value
  else if value ≤ 0xFFFFFFFF then 0xFE :: toLE 4 value
  else 0xFF :: toLE 8 value

/-- `CompactSize::from_bytes`.  `rest.length + 1` is `bytes.len()`; the
reads `bytes[1..=k]` are `rest.take k`, in bounds by the guard. -/
def CompactSize.from_bytes (bytes : List Nat) : DResult CompactSize :=
  match bytes with
  | [] => DResult.err BitcoinError.insufficientBytes
  | b0 :: rest =>
    if b0 ≤ 0xFC then DResult.ok ⟨b0⟩ 1
    else if b0 = 0xFD then
      if rest.length + 1 < 3 then DResult.err BitcoinError.insufficientBytes
      else DResult.ok ⟨fromLE (rest.take 2)⟩ 3
    else if b0 = 0xFE then
      if rest.length + 1 < 5 then DResult.err BitcoinError.insufficientBytes
      else DResult.ok ⟨fromLE (rest.take 4)⟩ 5
    else if b0 = 0xFF then
      if rest.length + 1 < 9 then DResult.err BitcoinError.insufficientBytes
      else DResult.ok ⟨fromLE (rest.take 8)⟩ 9
    else DResult.err BitcoinError.invalidFormat

/-- Rust `struct Txid(pub [u8; 32])`. -/
structure Txid where
  bytes : List Nat
deriving DecidableEq

/-- The `[u8; 32]` constraints of the wrapped array. -/
def Txid.WF (t : Txid) : Prop := t.bytes.length = 32 ∧ bytesWF t.bytes

instance (t : Txid) : Decidable t.WF := inferInstanceAs (Decidable (_ ∧ _))

/-- Rust `struct OutPoint { txid: Txid, vout: u32 }`. -/
structure OutPoint where
  txid : Txid
  vout : Nat
deriving DecidableEq

def OutPoint.WF (o : OutPoint) : Prop := o.txid.WF ∧ o.vout < 2 ^ 32

instance (o : OutPoint) : Decidable o.WF := inferInstanceAs (Decidable (_ ∧ _))

/-- `OutPoint::to_bytes`: the 32 identifier bytes then `vout` little-endian. -/
def OutPoint.to_bytes (o : OutPoint) : List Nat :=
  o.txid.bytes ++ toLE 4 o.vout

/-- `OutPoint::from_bytes`: 36-byte bound check, then bytes [0,32) as the
identifier and bytes [32,36) as a little-endian u32. -/
def OutPoint.from_bytes (bytes : List Nat) : DResult OutPoint :=
  if bytes.length < 36 then DResult.err BitcoinError.insufficientBytes
  else DResult.ok ⟨⟨bytes.take 32⟩, fromLE ((bytes.drop 32).take 4)⟩ 36

/-- Rust `struct Script { bytes: Vec<u8> }`. -/
structure Script where
  bytes : List Nat
deriving DecidableEq

/-- Byte content plus the Rust `Vec` length bound (an allocation holds at
most `isize::MAX` bytes). -/
def Script.WF (s : Script) : Prop := bytesWF s.bytes ∧ s.bytes.length ≤ 2 ^ 63 - 1

instance (s : Script) : Decidable s.WF := inferInstanceAs (Decidable (_ ∧ _))

/-- `Script::to_bytes`: CompactSize length, then the payload verbatim. -/
def Script.to_bytes (s : Script) : List Nat :=
  CompactSize.to_bytes ⟨s.bytes.length⟩ ++ s.bytes

/-- `Script::from_bytes`.  The Rust line
`let total_len = prefix_len + (len_prefix.value as usize);` adds without an
overflow check: when the sum reaches `2 ^ 64` the call panics — in debug
mode at the addition, in release mode at the slice `bytes[prefix_len..total_len]`,
whose wrapped end lies below its start — modelled by the `panic` outcome. -/
def Script.from_bytes (bytes : List Nat) : DResult Script :=
  match CompactSize.from_bytes bytes with
  | DResult.err e => DResult.err e
  | DResult.panic => DResult.panic
  | DResult.ok len_pref prefLen =>
    if USIZE ≤ prefLen + len_pref.value then DResult.panic
    else
      let totalLen := prefLen + len_pref.value
      if bytes.length < totalLen then DResult.err BitcoinError.insufficientBytes
      else DResult.ok ⟨(bytes.drop prefLen).take len_pref.value⟩ totalLen

/-- Rust `struct TransactionInput`. -/
structure TransactionInput where
  previous_output : OutPoint
  script_sig : Script
  sequence : Nat
deriving DecidableEq

def TransactionInput.WF (i : TransactionInput) : Prop :=
  i.previous_output.WF ∧ i.script_sig.WF ∧ i.sequence < 2 ^ 32

instance (i : TransactionInput) : Decidable i.WF := inferInstanceAs (Decidable (_ ∧ _))

/-- `TransactionInput::to_bytes`: OutPoint bytes ++ Script bytes ++
little-endian sequence number. -/
def TransactionInput.to_bytes (i : TransactionInput) : List Nat :=
  i.previous_output.to_bytes ++ i.script_sig.to_bytes ++ toLE 4 i.sequence

/-- `TransactionInput::from_bytes`: OutPoint, then Script from
`bytes[offset1..]`, then the u32 sequence at `offset1 + offset2`. -/
def TransactionInput.from_bytes (bytes : List Nat) : DResult TransactionInput :=
  match OutPoint.from_bytes bytes with
  | DResult.err e => DResult.err e
  | DResult.panic => DResult.panic
  | DResult.ok outpoint offset1 =>
    match Script.from_bytes (bytes.drop offset1) with
    | DResult.err e => DResult.err e
    | DResult.panic => DResult.panic
    | DResult.ok script offset2 =>
      if bytes.length < offset1 + offset2 + 4 then DResult.err BitcoinError.insufficientBytes
      else
        DResult.ok ⟨outpoint, script, fromLE ((bytes.drop (offset1 + offset2)).take 4)⟩
          (offset1 + offset2 + 4)

/-- Rust `struct BitcoinTransaction`. -/
structure BitcoinTransaction where
  version : Nat
  inputs : List TransactionInput
  lock_time : Nat
deriving DecidableEq

def BitcoinTransaction.WF (tx : BitcoinTransaction) : Prop :=
  tx.version < 2 ^ 32 ∧ (∀ i ∈ tx.inputs, i.WF) ∧
    tx.inputs.length < 2 ^ 64 ∧ tx.lock_time < 2 ^ 32

instance (tx : BitcoinTransaction) : Decidable tx.WF :=
  inferInstanceAs (Decidable (_ ∧ _))

/-- `BitcoinTransaction::to_bytes`: version ++ CompactSize input count ++
each input's bytes in order ++ lock time. -/
def BitcoinTransaction.to_bytes (tx : BitcoinTransaction) : List Nat :=
  toLE 4 tx.version ++ CompactSize.to_bytes ⟨tx.inputs.length⟩ ++
    (tx.inputs.map TransactionInput.to_bytes).flatten ++ toLE 4 tx.lock_time

/-- The `for _ in 0..size.value` loop of `BitcoinTransaction::from_bytes`:
decode `n` inputs starting at `offset`, returning the decoded list with the
final offset in the `consumed` slot.  Loop state (`inputs`, `offset`) is
threaded through the recursion. -/
def decodeInputs (bytes : List Nat) (offset : Nat) : Nat → DResult (List TransactionInput)
  | 0 => DResult.ok [] offset
  | n + 1 =>
    match TransactionInput.from_bytes (bytes.drop offset) with
    | DResult.err e => DResult.err e
    | DResult.panic => DResult.panic
    | DResult.ok input inputLen =>
      match decodeInputs bytes (offset + inputLen) n with
      | DResult.err e => DResult.err e
      | DResult.panic => DResult.panic
      | DResult.ok rest finalOffset => DResult.ok (input :: rest) finalOffset

/-- `BitcoinTransaction::from_bytes`: version bound check and read, the
CompactSize input count from `bytes[4..]`, the decode loop, then the u32
lock time at the final offset. -/
def BitcoinTransaction.from_bytes (bytes : List Nat) : DResult BitcoinTransaction :=
  if bytes.length < 4 then DResult.err BitcoinError.insufficientBytes
  else
    match CompactSize.from_bytes (bytes.drop 4) with
    | DResult.err e => DResult.err e
    | DResult.panic => DResult.panic
    | DResult.ok size offset1 =>
      match decodeInputs bytes (4 + offset1) size.value with
      | DResult.err e => DResult.err e
      | DResult.panic => DResult.panic
      | DResult.ok inputs offset =>
        if bytes.length < offset + 4 then DResult.err BitcoinError.insufficientBytes
        else
          DResult.ok ⟨fromLE (bytes.take 4), inputs, fromLE ((bytes.drop offset).take 4)⟩
            (offset + 4)

/-! ### Little-endian helper lemmas -/

theorem toLE_length (w v : Nat) : (toLE w v).length = w := by
  induction w generalizing v with
  | zero => rfl
  | succ w ih => simp [toLE, ih]

theorem toLE_lt (w v : Nat) : bytesWF (toLE w v) := by
  induction w generalizing v with
  | zero => intro b hb; simp [toLE] at hb
  | succ w ih =>
    intro b hb
    simp only [toLE, List.mem_cons] at hb
    rcases hb with hb | hb
    · subst hb; exact Nat.mod_lt _ (by omega)
    · exact ih _ _ hb

theorem fromLE_toLE (w v : Nat) (h : v < 2 ^ (8 * w)) : fromLE (toLE w v) = v := by
  induction w generalizing v with
  | zero =>
    simp only [toLE, fromLE]
    omega
  | succ w ih =>
    have hv : v / 256 < 2 ^ (8 * w) := by
      apply Nat.div_lt_of_lt_mul
      calc v < 2 ^ (8 * (w + 1)) := h
        _ = 256 * 2 ^ (8 * w) := by rw [Nat.mul_succ, Nat.add_comm, pow_add]; norm_num
    simp only [toLE, fromLE, ih _ hv]
    omega

/-! ### CompactSize lemmas -/

theorem CompactSize.to_bytes_length_le (cs : CompactSize) : cs.to_bytes.length ≤ 9 := by
  simp only [CompactSize.to_bytes]
  split_ifs <;> simp [toLE_length]

theorem compactSize_decode_encode_extra (cs : CompactSize) (h : cs.WF) (extra : List Nat) :
    CompactSize.from_bytes (cs.to_bytes ++ extra) = DResult.ok cs cs.to_bytes.length := by
  obtain ⟨v⟩ := cs
  have h64 : v < 2 ^ 64 := h
  by_cases h1 : v ≤ 0xFC
  · have hm : v % 256 = v := Nat.mod_eq_of_lt (by omega)
    simp [CompactSize.to_bytes, CompactSize.from_bytes, h1, hm]
  · by_cases h2 : v ≤ 0xFFFF
    · have hv : fromLE (toLE 2 v) = v := fromLE_toLE 2 v (by norm_num; omega)
      have hc : ¬((toLE 2 v ++ extra).length + 1 < 3) := by
        simp only [List.length_append, toLE_length]; omega
      simp [CompactSize.to_bytes, CompactSize.from_bytes, h1, h2, hc,
        List.take_left' (toLE_length 2 v), hv, toLE_length]
    · by_cases h3 : v ≤ 0xFFFFFFFF
      · have hv : fromLE (toLE 4 v) = v := fromLE_toLE 4 v (by norm_num; omega)
        have hc : ¬((toLE 4 v ++ extra).length + 1 < 5) := by
          simp only [List.length_append, toLE_length]; omega
        simp [CompactSize.to_bytes, CompactSize.from_bytes, h1, h2, h3, hc,
          List.take_left' (toLE_length 4 v), hv, toLE_length]
      · have hv : fromLE (toLE 8 v) = v := fromLE_toLE 8 v (by norm_num; omega)
        have hc : ¬((toLE 8 v ++ extra).length + 1 < 9) := by
          simp only [List.length_append, toLE_length]; omega
        simp [CompactSize.to_bytes, CompactSize.from_bytes, h1, h2, h3, hc,
          List.take_left' (toLE_length 8 v), hv, toLE_length]

theorem compactSize_decode_take (cs : CompactSize) (k : Nat)
    (hk : k < cs.to_bytes.length) :
    CompactSize.from_bytes (cs.to_bytes.take k) = DResult.err BitcoinError.insufficientBytes := by
  obtain ⟨v⟩ := cs
  by_cases h1 : v ≤ 0xFC
  · have hk0 : k = 0 := by
      simp only [CompactSize.to_bytes, if_pos h1, List.length_cons, List.length_nil] at hk
      omega
    subst hk0
    simp [CompactSize.from_bytes]
  · by_cases h2 : v ≤ 0xFFFF
    · have hk3 : k < 3 := by
        simpa [CompactSize.to_bytes, h1, h2, toLE_length] using hk
      cases k with
      | zero => simp [CompactSize.from_bytes]
      | succ j =>
        have hc : ((toLE 2 v).take j).length + 1 < 3 := by
          simp only [List.length_take, toLE_length]; omega
        simp [CompactSize.to_bytes, CompactSize.from_bytes, h1, h2, hc, toLE_length]
        all_goals omega
    · by_cases h3 : v ≤ 0xFFFFFFFF
      · have hk5 : k < 5 := by
          simpa [CompactSize.to_bytes, h1, h2, h3, toLE_length] using hk
        cases k with
        | zero => simp [CompactSize.from_bytes]
        | succ j =>
          have hc : ((toLE 4 v).take j).length + 1 < 5 := by
            simp only [List.length_take, toLE_length]; omega
          simp [CompactSize.to_bytes, CompactSize.from_bytes, h1, h2, h3, hc, toLE_length]
          all_goals omega
      · have hk9 : k < 9 := by
          simpa [CompactSize.to_bytes, h1, h2, h3, toLE_length] using hk
        cases k with
        | zero => simp [CompactSize.from_bytes]
        | succ j =>
          have hc : ((toLE 8 v).take j).length + 1 < 9 := by
            simp only [List.length_take, toLE_length]; omega
          simp [CompactSize.to_bytes, CompactSize.from_bytes, h1, h2, h3, hc, toLE_length]
          all_goals omega

/-! ### OutPoint lemmas -/

theorem outPoint_encode_length (o : OutPoint) (h : o.txid.bytes.length = 32) :
    o.to_bytes.length = 36 := by
  simp [OutPoint.to_bytes, toLE_length, h]

theorem outPoint_decode_encode_extra (o : OutPoint) (h : o.WF) (extra : List Nat) :
    OutPoint.from_bytes (o.to_bytes ++ extra) = DResult.ok o 36 := by
  obtain ⟨⟨tb⟩, vout⟩ := o
  obtain ⟨⟨hlen, -⟩, hv⟩ := h
  have hlen' : tb.length = 32 := hlen
  have hv' : vout < 2 ^ 32 := hv
  have hassoc : OutPoint.to_bytes ⟨⟨tb⟩, vout⟩ ++ extra = tb ++ (toLE 4 vout ++ extra) := by
    simp [OutPoint.to_bytes]
  rw [hassoc]
  have hfull : ¬((tb ++ (toLE 4 vout ++ extra)).length < 36) := by
    simp only [List.length_append, toLE_length]
    omega
  have htake : (tb ++ (toLE 4 vout ++ extra)).take 32 = tb := List.take_left' hlen'
  have hdrop : (tb ++ (toLE 4 vout ++ extra)).drop 32 = toLE 4 vout ++ extra :=
    List.drop_left' hlen'
  have htake4 : (toLE 4 vout ++ extra).take 4 = toLE 4 vout := List.take_left' (toLE_length 4 vout)
  unfold OutPoint.from_bytes
  rw [if_neg hfull, htake, hdrop, htake4, fromLE_toLE 4 vout (by norm_num; omega)]

theorem outPoint_decode_take (o : OutPoint) (_h : o.WF) (k : Nat) (hk : k < 36) :
    OutPoint.from_bytes (o.to_bytes.take k) = DResult.err BitcoinError.insufficientBytes := by
  have hlen : (o.to_bytes.take k).length < 36 :=
    lt_of_le_of_lt (List.length_take_le k _) hk
  unfold OutPoint.from_bytes
  rw [if_pos hlen]

/-! ### Script lemmas -/

theorem script_encode_length (s : Script) :
    s.to_bytes.length = (CompactSize.to_bytes ⟨s.bytes.length⟩).length + s.bytes.length := by
  simp [Script.to_bytes]

theorem script_decode_encode_extra (s : Script) (h : s.WF) (extra : List Nat) :
    Script.from_bytes (s.to_bytes ++ extra) = DResult.ok s s.to_bytes.length := by
  obtain ⟨payload⟩ := s
  obtain ⟨hb, hlen⟩ := h
  have h63 : payload.length ≤ 2 ^ 63 - 1 := hlen
  have hassoc : Script.to_bytes ⟨payload⟩ ++ extra =
      CompactSize.to_bytes ⟨payload.length⟩ ++ (payload ++ extra) := by
    simp [Script.to_bytes]
  rw [hassoc]
  have hcs : CompactSize.from_bytes (CompactSize.to_bytes ⟨payload.length⟩ ++ (payload ++ extra)) =
      DResult.ok ⟨payload.length⟩ (CompactSize.to_bytes ⟨payload.length⟩).length :=
    compactSize_decode_encode_extra _ (by simp only [CompactSize.WF]; norm_num; omega) _
  have hpl : (CompactSize.to_bytes ⟨payload.length⟩).length ≤ 9 :=
    CompactSize.to_bytes_length_le _
  have hnoof : ¬(USIZE ≤ (CompactSize.to_bytes ⟨payload.length⟩).length + payload.length) := by
    simp only [USIZE]; norm_num; omega
  have hlc : ¬((CompactSize.to_bytes ⟨payload.length⟩ ++ (payload ++ extra)).length <
      (CompactSize.to_bytes ⟨payload.length⟩).length + payload.length) := by
    simp only [List.length_append]; omega
  have hdrop : (CompactSize.to_bytes ⟨payload.length⟩ ++ (payload ++ extra)).drop
      (CompactSize.to_bytes ⟨payload.length⟩).length = payload ++ extra := List.drop_left' rfl
  have htake : (payload ++ extra).take payload.length = payload := List.take_left' rfl
  simp [Script.from_bytes, hcs, hnoof, hlc, hdrop, htake, Script.to_bytes]

theorem script_decode_take (s : Script) (h : s.WF) (k : Nat) (hk : k < s.to_bytes.length) :
    Script.from_bytes (s.to_bytes.take k) = DResult.err BitcoinError.insufficientBytes := by
  obtain ⟨payload⟩ := s
  obtain ⟨hb, hlen⟩ := h
  have h63 : payload.length ≤ 2 ^ 63 - 1 := hlen
  have hk' : k < (CompactSize.to_bytes ⟨payload.length⟩).length + payload.length := by
    simpa [Script.to_bytes] using hk
  by_cases hc : k < (CompactSize.to_bytes ⟨payload.length⟩).length
  · have htake : (Script.to_bytes ⟨payload⟩).take k =
        (CompactSize.to_bytes ⟨payload.length⟩).take k := by
      have hz : k - (CompactSize.to_bytes ⟨payload.length⟩).length = 0 := by omega
      simp [Script.to_bytes, List.take_append_eq_append_take, hz]
    rw [htake]
    have hcs := compactSize_decode_take ⟨payload.length⟩ k hc
    simp [Script.from_bytes, hcs]
  · push_neg at hc
    have htake : (Script.to_bytes ⟨payload⟩).take k =
        CompactSize.to_bytes ⟨payload.length⟩ ++
          payload.take (k - (CompactSize.to_bytes ⟨payload.length⟩).length) := by
      simp [Script.to_bytes, List.take_append_eq_append_take, List.take_of_length_le hc]
    rw [htake]
    have hcs : CompactSize.from_bytes (CompactSize.to_bytes ⟨payload.length⟩ ++
        payload.take (k - (CompactSize.to_bytes ⟨payload.length⟩).length)) =
        DResult.ok ⟨payload.length⟩ (CompactSize.to_bytes ⟨payload.length⟩).length :=
      compactSize_decode_encode_extra _ (by simp only [CompactSize.WF]; norm_num; omega) _
    have hpl : (CompactSize.to_bytes ⟨payload.length⟩).length ≤ 9 :=
      CompactSize.to_bytes_length_le _
    have hnoof : ¬(USIZE ≤ (CompactSize.to_bytes ⟨payload.length⟩).length + payload.length) := by
      simp only [USIZE]; norm_num; omega
    have hrem : k - (CompactSize.to_bytes ⟨payload.length⟩).length < payload.length := by
      omega
    have hlc : (CompactSize.to_bytes ⟨payload.length⟩ ++
        payload.take (k - (CompactSize.to_bytes ⟨payload.length⟩).length)).length <
        (CompactSize.to_bytes ⟨payload.length⟩).length + payload.length := by
      simp only [List.length_append, List.length_take]; omega
    simp [Script.from_bytes, hcs, hnoof, hlc, hrem]

/-! ### TransactionInput lemmas -/

theorem txInput_encode_length (i : TransactionInput)
    (h : i.previous_output.txid.bytes.length = 32) :
    i.to_bytes.length = 36 + i.script_sig.to_bytes.length + 4 := by
  simp [TransactionInput.to_bytes, List.length_append, toLE_length,
    outPoint_encode_length i.previous_output h]
  omega

theorem txInput_decode_encode_extra (i : TransactionInput) (h : i.WF)
    (extra : List Nat) :
    TransactionInput.from_bytes (i.to_bytes ++ extra) = DResult.ok i i.to_bytes.length := by
  obtain ⟨o, s, seq⟩ := i
  obtain ⟨ho, hs, hseq⟩ := h
  have ho' : o.WF := ho
  have hseq' : seq < 2 ^ 32 := hseq
  have hol : o.to_bytes.length = 36 := outPoint_encode_length o ho'.1.1
  have hassoc : TransactionInput.to_bytes ⟨o, s, seq⟩ ++ extra =
      o.to_bytes ++ (s.to_bytes ++ (toLE 4 seq ++ extra)) := by
    simp [TransactionInput.to_bytes]
  rw [hassoc]
  have hop := outPoint_decode_encode_extra o ho' (s.to_bytes ++ (toLE 4 seq ++ extra))
  have hdrop36 : (o.to_bytes ++ (s.to_bytes ++ (toLE 4 seq ++ extra))).drop 36
      = s.to_bytes ++ (toLE 4 seq ++ extra) := List.drop_left' hol
  have hsc := script_decode_encode_extra s hs (toLE 4 seq ++ extra)
  have hlc : ¬((o.to_bytes ++ (s.to_bytes ++ (toLE 4 seq ++ extra))).length <
      36 + s.to_bytes.length + 4) := by
    simp only [List.length_append, toLE_length, hol]; omega
  have hdropS : (o.to_bytes ++ (s.to_bytes ++ (toLE 4 seq ++ extra))).drop
      (36 + s.to_bytes.length) = toLE 4 seq ++ extra := by
    rw [← List.append_assoc]
    exact List.drop_left' (by simp [List.length_append, hol])
  have htk : (toLE 4 seq ++ extra).take 4 = toLE 4 seq := List.take_left' (toLE_length 4 seq)
  simp only [TransactionInput.from_bytes, hop, hdrop36, hsc, hlc, if_false, hdropS, htk,
    fromLE_toLE 4 seq (by norm_num; omega)]
  simp [TransactionInput.to_bytes, List.length_append, toLE_length, hol]
  omega

theorem txInput_decode_take (i : TransactionInput) (h : i.WF) (k : Nat)
    (hk : k < i.to_bytes.length) :
    TransactionInput.from_bytes (i.to_bytes.take k) = DResult.err BitcoinError.insufficientBytes := by
  obtain ⟨o, s, seq⟩ := i
  obtain ⟨ho, hs, hseq⟩ := h
  have ho' : o.WF := ho
  have hs' : s.WF := hs
  have hol : o.to_bytes.length = 36 := outPoint_encode_length o ho'.1.1
  have hkl : k < 36 + s.to_bytes.length + 4 := by
    have htl := txInput_encode_length ⟨o, s, seq⟩ ho'.1.1
    dsimp only at htl hk
    omega
  have hassoc : TransactionInput.to_bytes ⟨o, s, seq⟩ =
      o.to_bytes ++ (s.to_bytes ++ toLE 4 seq) := by
    simp [TransactionInput.to_bytes]
  rw [hassoc]
  by_cases hc1 : k < 36
  · have hlen : ((o.to_bytes ++ (s.to_bytes ++ toLE 4 seq)).take k).length < 36 :=
      lt_of_le_of_lt (List.length_take_le k _) hc1
    unfold TransactionInput.from_bytes OutPoint.from_bytes
    rw [if_pos hlen]
  · push_neg at hc1
    by_cases hc2 : k - 36 < s.to_bytes.length
    · have htakeP : (o.to_bytes ++ (s.to_bytes ++ toLE 4 seq)).take k
          = o.to_bytes ++ s.to_bytes.take (k - 36) := by
        rw [List.take_append_eq_append_take, List.take_of_length_le (by omega), hol,
          List.take_append_eq_append_take]
        have hz : k - 36 - s.to_bytes.length = 0 := by omega
        simp [hz]
      rw [htakeP]
      have hop := outPoint_decode_encode_extra o ho' (s.to_bytes.take (k - 36))
      have hdropP : (o.to_bytes ++ s.to_bytes.take (k - 36)).drop 36 = s.to_bytes.take (k - 36) :=
        List.drop_left' hol
      have hsc := script_decode_take s hs' (k - 36) hc2
      simp only [TransactionInput.from_bytes, hop, hdropP, hsc]
    · push_neg at hc2
      have htakeP : (o.to_bytes ++ (s.to_bytes ++ toLE 4 seq)).take k
          = o.to_bytes ++ (s.to_bytes ++ (toLE 4 seq).take (k - 36 - s.to_bytes.length)) := by
        rw [List.take_append_eq_append_take, List.take_of_length_le (by omega), hol,
          List.take_append_eq_append_take, List.take_of_length_le hc2]
      rw [htakeP]
      have hop := outPoint_decode_encode_extra o ho'
        (s.to_bytes ++ (toLE 4 seq).take (k - 36 - s.to_bytes.length))
      have hdropP : (o.to_bytes ++ (s.to_bytes ++ (toLE 4 seq).take
          (k - 36 - s.to_bytes.length))).drop 36
          = s.to_bytes ++ (toLE 4 seq).take (k - 36 - s.to_bytes.length) :=
        List.drop_left' hol
      have hsc := script_decode_encode_extra s hs' ((toLE 4 seq).take (k - 36 - s.to_bytes.length))
      have hlc : (o.to_bytes ++ (s.to_bytes ++ (toLE 4 seq).take
          (k - 36 - s.to_bytes.length))).length < 36 + s.to_bytes.length + 4 := by
        simp only [List.length_append, List.length_take, toLE_length, hol]
        omega
      simp only [TransactionInput.from_bytes, hop, hdropP, hsc]
      rw [if_pos hlc]

/-! ### Decode-loop lemmas -/

theorem decodeInputs_length (bytes : List Nat) (n : Nat) :
    ∀ offset l finalOffset, decodeInputs bytes offset n = DResult.ok l finalOffset →
      l.length = n := by
  induction n with
  | zero =>
    intro offset l f h
    simp only [decodeInputs, DResult.ok.injEq] at h
    simp [← h.1]
  | succ n ih =>
    intro offset l f h
    simp only [decodeInputs] at h
    cases hti : TransactionInput.from_bytes (bytes.drop offset) with
    | err e => rw [hti] at h; simp at h
    | panic => rw [hti] at h; simp at h
    | ok input inputLen =>
      rw [hti] at h
      dsimp only at h
      cases hdi : decodeInputs bytes (offset + inputLen) n with
      | err e => rw [hdi] at h; simp at h
      | panic => rw [hdi] at h; simp at h
      | ok rest fo =>
        rw [hdi] at h
        simp only [DResult.ok.injEq] at h
        obtain ⟨h1, -⟩ := h
        rw [← h1]
        simp [ih _ _ _ hdi]

theorem decodeInputs_append (inputs : List TransactionInput) (h : ∀ i ∈ inputs, i.WF)
    (extra : List Nat) :
    ∀ (bytes : List Nat) (offset : Nat),
      bytes.drop offset = (inputs.map TransactionInput.to_bytes).flatten ++ extra →
      decodeInputs bytes offset inputs.length =
        DResult.ok inputs (offset + ((inputs.map TransactionInput.to_bytes).flatten).length) := by
  induction inputs with
  | nil => intro bytes offset hb; simp [decodeInputs]
  | cons i rest ih =>
    intro bytes offset hb
    have hiWF : i.WF := h i (by simp)
    have hrestWF : ∀ j ∈ rest, j.WF := fun j hj => h j (by simp [hj])
    simp only [List.map_cons, List.flatten_cons, List.append_assoc] at hb
    have hti : TransactionInput.from_bytes (bytes.drop offset) =
        DResult.ok i i.to_bytes.length := by
      rw [hb]; exact txInput_decode_encode_extra i hiWF _
    have hdrop : bytes.drop (offset + i.to_bytes.length) =
        (rest.map TransactionInput.to_bytes).flatten ++ extra := by
      rw [← List.drop_drop, hb]
      exact List.drop_left' rfl
    have hrec := ih hrestWF bytes (offset + i.to_bytes.length) hdrop
    simp only [List.length_cons, decodeInputs, hti, hrec, List.map_cons, List.flatten_cons,
      List.length_append, DResult.ok.injEq, true_and]
    omega

theorem decodeInputs_take (inputs : List TransactionInput) (h : ∀ i ∈ inputs, i.WF) :
    ∀ (bytes : List Nat) (offset m : Nat),
      m < ((inputs.map TransactionInput.to_bytes).flatten).length →
      bytes.drop offset = ((inputs.map TransactionInput.to_bytes).flatten).take m →
      decodeInputs bytes offset inputs.length = DResult.err BitcoinError.insufficientBytes := by
  induction inputs with
  | nil => intro bytes offset m hm hb; simp at hm
  | cons i rest ih =>
    intro bytes offset m hm hb
    have hiWF : i.WF := h i (by simp)
    have hrestWF : ∀ j ∈ rest, j.WF := fun j hj => h j (by simp [hj])
    simp only [List.map_cons, List.flatten_cons, List.length_append] at hm
    simp only [List.map_cons, List.flatten_cons, List.take_append_eq_append_take] at hb
    by_cases hc : m < i.to_bytes.length
    · have hz : m - i.to_bytes.length = 0 := by omega
      rw [hz, List.take_zero, List.append_nil] at hb
      have hti : TransactionInput.from_bytes (bytes.drop offset) =
          DResult.err BitcoinError.insufficientBytes := by
        rw [hb]; exact txInput_decode_take i hiWF m hc
      simp only [List.length_cons, decodeInputs, hti]
    · push_neg at hc
      rw [List.take_of_length_le hc] at hb
      have hti : TransactionInput.from_bytes (bytes.drop offset) =
          DResult.ok i i.to_bytes.length := by
        rw [hb]; exact txInput_decode_encode_extra i hiWF _
      have hdrop : bytes.drop (offset + i.to_bytes.length) =
          ((rest.map TransactionInput.to_bytes).flatten).take (m - i.to_bytes.length) := by
        rw [← List.drop_drop, hb]
        exact List.drop_left' rfl
      have hm' : m - i.to_bytes.length <
          ((rest.map TransactionInput.to_bytes).flatten).length := by omega
      have hrec := ih hrestWF bytes (offset + i.to_bytes.length) (m - i.to_bytes.length) hm' hdrop
      simp only [List.length_cons, decodeInputs, hti, hrec]

/-! ### BitcoinTransaction lemmas -/

theorem txn_encode_length (tx : BitcoinTransaction) :
    tx.to_bytes.length = 4 + (CompactSize.to_bytes ⟨tx.inputs.length⟩).length +
      ((tx.inputs.map TransactionInput.to_bytes).flatten).length + 4 := by
  simp only [BitcoinTransaction.to_bytes, List.length_append, toLE_length]

theorem txn_decode_encode_extra (tx : BitcoinTransaction) (h : tx.WF)
    (extra : List Nat) :
    BitcoinTransaction.from_bytes (tx.to_bytes ++ extra) = DResult.ok tx tx.to_bytes.length := by
  obtain ⟨version, inputs, lock_time⟩ := tx
  obtain ⟨hver, hin, hcnt, hlock⟩ := h
  have hver' : version < 2 ^ 32 := hver
  have hlock' : lock_time < 2 ^ 32 := hlock
  have hcnt' : inputs.length < 2 ^ 64 := hcnt
  have hin' : ∀ i ∈ inputs, i.WF := hin
  have hassoc : BitcoinTransaction.to_bytes ⟨version, inputs, lock_time⟩ ++ extra =
      toLE 4 version ++ (CompactSize.to_bytes ⟨inputs.length⟩ ++
        ((inputs.map TransactionInput.to_bytes).flatten ++ (toLE 4 lock_time ++ extra))) := by
    simp [BitcoinTransaction.to_bytes]
  rw [hassoc]
  have hlen4 : ¬((toLE 4 version ++ (CompactSize.to_bytes ⟨inputs.length⟩ ++
      ((inputs.map TransactionInput.to_bytes).flatten ++
        (toLE 4 lock_time ++ extra)))).length < 4) := by
    simp only [List.length_append, toLE_length]; omega
  have hdrop4 : (toLE 4 version ++ (CompactSize.to_bytes ⟨inputs.length⟩ ++
      ((inputs.map TransactionInput.to_bytes).flatten ++
        (toLE 4 lock_time ++ extra)))).drop 4 =
      CompactSize.to_bytes ⟨inputs.length⟩ ++
        ((inputs.map TransactionInput.to_bytes).flatten ++ (toLE 4 lock_time ++ extra)) :=
    List.drop_left' (toLE_length 4 version)
  have hcs : CompactSize.from_bytes ((toLE 4 version ++ (CompactSize.to_bytes ⟨inputs.length⟩ ++
      ((inputs.map TransactionInput.to_bytes).flatten ++
        (toLE 4 lock_time ++ extra)))).drop 4) =
      DResult.ok ⟨inputs.length⟩ (CompactSize.to_bytes ⟨inputs.length⟩).length := by
    rw [hdrop4]
    exact compactSize_decode_encode_extra _ hcnt' _
  have hdropcs : (toLE 4 version ++ (CompactSize.to_bytes ⟨inputs.length⟩ ++
      ((inputs.map TransactionInput.to_bytes).flatten ++
        (toLE 4 lock_time ++ extra)))).drop (4 + (CompactSize.to_bytes ⟨inputs.length⟩).length) =
      (inputs.map TransactionInput.to_bytes).flatten ++ (toLE 4 lock_time ++ extra) := by
    rw [← List.drop_drop, hdrop4]
    exact List.drop_left' rfl
  have hdi : decodeInputs (toLE 4 version ++ (CompactSize.to_bytes ⟨inputs.length⟩ ++
      ((inputs.map TransactionInput.to_bytes).flatten ++ (toLE 4 lock_time ++ extra))))
      (4 + (CompactSize.to_bytes ⟨inputs.length⟩).length) inputs.length =
      DResult.ok inputs (4 + (CompactSize.to_bytes ⟨inputs.length⟩).length +
        ((inputs.map TransactionInput.to_bytes).flatten).length) :=
    decodeInputs_append inputs hin' (toLE 4 lock_time ++ extra) _ _ hdropcs
  have hlenlock : ¬((toLE 4 version ++ (CompactSize.to_bytes ⟨inputs.length⟩ ++
      ((inputs.map TransactionInput.to_bytes).flatten ++
        (toLE 4 lock_time ++ extra)))).length <
      4 + (CompactSize.to_bytes ⟨inputs.length⟩).length +
        ((inputs.map TransactionInput.to_bytes).flatten).length + 4) := by
    simp only [List.length_append, toLE_length]; omega
  have htake4 : (toLE 4 version ++ (CompactSize.to_bytes ⟨inputs.length⟩ ++
      ((inputs.map TransactionInput.to_bytes).flatten ++
        (toLE 4 lock_time ++ extra)))).take 4 = toLE 4 version :=
    List.take_left' (toLE_length 4 version)
  have hdropJ : (toLE 4 version ++ (CompactSize.to_bytes ⟨inputs.length⟩ ++
      ((inputs.map TransactionInput.to_bytes).flatten ++
        (toLE 4 lock_time ++ extra)))).drop (4 + (CompactSize.to_bytes ⟨inputs.length⟩).length +
        ((inputs.map TransactionInput.to_bytes).flatten).length) =
      toLE 4 lock_time ++ extra := by
    rw [← List.drop_drop, hdropcs]
    exact List.drop_left' rfl
  have htklock : (toLE 4 lock_time ++ extra).take 4 = toLE 4 lock_time :=
    List.take_left' (toLE_length 4 lock_time)
  simp only [BitcoinTransaction.from_bytes, hlen4, if_false, hcs, hdi, hlenlock, htake4,
    hdropJ, htklock, fromLE_toLE 4 version (by norm_num; omega),
    fromLE_toLE 4 lock_time (by norm_num; omega), DResult.ok.injEq, true_and]
  have htl := txn_encode_length ⟨version, inputs, lock_time⟩
  dsimp only at htl
  omega

theorem txn_decode_take (tx : BitcoinTransaction) (h : tx.WF) (k : Nat)
    (hk : k < tx.to_bytes.length) :
    BitcoinTransaction.from_bytes (tx.to_bytes.take k) =
      DResult.err BitcoinError.insufficientBytes := by
  obtain ⟨version, inputs, lock_time⟩ := tx
  obtain ⟨hver, hin, hcnt, hlock⟩ := h
  have hcnt' : inputs.length < 2 ^ 64 := hcnt
  have hin' : ∀ i ∈ inputs, i.WF := hin
  have htl := txn_encode_length ⟨version, inputs, lock_time⟩
  dsimp only at htl hk
  have hk' : k < 4 + (CompactSize.to_bytes ⟨inputs.length⟩).length +
      ((inputs.map TransactionInput.to_bytes).flatten).length + 4 := by omega
  have hassoc : BitcoinTransaction.to_bytes ⟨version, inputs, lock_time⟩ =
      toLE 4 version ++ (CompactSize.to_bytes ⟨inputs.length⟩ ++
        ((inputs.map TransactionInput.to_bytes).flatten ++ toLE 4 lock_time)) := by
    simp [BitcoinTransaction.to_bytes]
  rw [hassoc]
  by_cases hc1 : k < 4
  · unfold BitcoinTransaction.from_bytes
    rw [if_pos (lt_of_le_of_lt (List.length_take_le k _) hc1)]
  · push_neg at hc1
    have h4 : (toLE 4 version).length ≤ k := by rw [toLE_length]; omega
    have htk0 : (toLE 4 version ++ (CompactSize.to_bytes ⟨inputs.length⟩ ++
        ((inputs.map TransactionInput.to_bytes).flatten ++ toLE 4 lock_time))).take k =
        toLE 4 version ++ (CompactSize.to_bytes ⟨inputs.length⟩ ++
          ((inputs.map TransactionInput.to_bytes).flatten ++ toLE 4 lock_time)).take (k - 4) := by
      rw [List.take_append_eq_append_take, List.take_of_length_le h4, toLE_length]
    rw [htk0]
    by_cases hc2 : k - 4 < (CompactSize.to_bytes ⟨inputs.length⟩).length
    · have htk1 : (CompactSize.to_bytes ⟨inputs.length⟩ ++
          ((inputs.map TransactionInput.to_bytes).flatten ++ toLE 4 lock_time)).take (k - 4) =
          (CompactSize.to_bytes ⟨inputs.length⟩).take (k - 4) := by
        rw [List.take_append_eq_append_take]
        have hz : k - 4 - (CompactSize.to_bytes ⟨inputs.length⟩).length = 0 := by omega
        simp [hz]
      rw [htk1]
      have hnl : ¬((toLE 4 version ++
          (CompactSize.to_bytes ⟨inputs.length⟩).take (k - 4)).length < 4) := by
        simp only [List.length_append, toLE_length]; omega
      have hdrop4 : (toLE 4 version ++
          (CompactSize.to_bytes ⟨inputs.length⟩).take (k - 4)).drop 4 =
          (CompactSize.to_bytes ⟨inputs.length⟩).take (k - 4) :=
        List.drop_left' (toLE_length 4 version)
      have hcs := compactSize_decode_take ⟨inputs.length⟩ (k - 4) hc2
      simp only [BitcoinTransaction.from_bytes, hnl, if_false, hdrop4, hcs]
    · push_neg at hc2
      have htk1 : (CompactSize.to_bytes ⟨inputs.length⟩ ++
          ((inputs.map TransactionInput.to_bytes).flatten ++ toLE 4 lock_time)).take (k - 4) =
          CompactSize.to_bytes ⟨inputs.length⟩ ++
            ((inputs.map TransactionInput.to_bytes).flatten ++ toLE 4 lock_time).take
              (k - 4 - (CompactSize.to_bytes ⟨inputs.length⟩).length) := by
        rw [List.take_append_eq_append_take, List.take_of_length_le hc2]
      rw [htk1]
      by_cases hc3 : k - 4 - (CompactSize.to_bytes ⟨inputs.length⟩).length <
          ((inputs.map TransactionInput.to_bytes).flatten).length
      · have htk2 : ((inputs.map TransactionInput.to_bytes).flatten ++ toLE 4 lock_time).take
            (k - 4 - (CompactSize.to_bytes ⟨inputs.length⟩).length) =
            ((inputs.map TransactionInput.to_bytes).flatten).take
              (k - 4 - (CompactSize.to_bytes ⟨inputs.length⟩).length) := by
          rw [List.take_append_eq_append_take]
          have hz : k - 4 - (CompactSize.to_bytes ⟨inputs.length⟩).length -
              ((inputs.map TransactionInput.to_bytes).flatten).length = 0 := by omega
          rw [hz, List.take_zero, List.append_nil]
        rw [htk2]
        have hnl : ¬((toLE 4 version ++ (CompactSize.to_bytes ⟨inputs.length⟩ ++
            ((inputs.map TransactionInput.to_bytes).flatten).take
              (k - 4 - (CompactSize.to_bytes ⟨inputs.length⟩).length))).length < 4) := by
          simp only [List.length_append, toLE_length]; omega
        have hdrop4 : (toLE 4 version ++ (CompactSize.to_bytes ⟨inputs.length⟩ ++
            ((inputs.map TransactionInput.to_bytes).flatten).take
              (k - 4 - (CompactSize.to_bytes ⟨inputs.length⟩).length))).drop 4 =
            CompactSize.to_bytes ⟨inputs.length⟩ ++
              ((inputs.map TransactionInput.to_bytes).flatten).take
                (k - 4 - (CompactSize.to_bytes ⟨inputs.length⟩).length) :=
          List.drop_left' (toLE_length 4 version)
        have hcs : CompactSize.from_bytes ((toLE 4 version ++
            (CompactSize.to_bytes ⟨inputs.length⟩ ++
              ((inputs.map TransactionInput.to_bytes).flatten).take
                (k - 4 - (CompactSize.to_bytes ⟨inputs.length⟩).length))).drop 4) =
            DResult.ok ⟨inputs.length⟩ (CompactSize.to_bytes ⟨inputs.length⟩).length := by
          rw [hdrop4]
          exact compactSize_decode_encode_extra _ hcnt' _
        have hdropcs : (toLE 4 version ++ (CompactSize.to_bytes ⟨inputs.length⟩ ++
            ((inputs.map TransactionInput.to_bytes).flatten).take
              (k - 4 - (CompactSize.to_bytes ⟨inputs.length⟩).length))).drop
            (4 + (CompactSize.to_bytes ⟨inputs.length⟩).length) =
            ((inputs.map TransactionInput.to_bytes).flatten).take
              (k - 4 - (CompactSize.to_bytes ⟨inputs.length⟩).length) := by
          rw [← List.drop_drop, hdrop4]
          exact List.drop_left' rfl
        have hdi := decodeInputs_take inputs hin' _ _ _ hc3 hdropcs
        simp only [BitcoinTransaction.from_bytes, hnl, if_false, hcs, hdi]
      · push_neg at hc3
        have htk2 : ((inputs.map TransactionInput.to_bytes).flatten ++ toLE 4 lock_time).take
            (k - 4 - (CompactSize.to_bytes ⟨inputs.length⟩).length) =
            (inputs.map TransactionInput.to_bytes).flatten ++
              (toLE 4 lock_time).take
                (k - 4 - (CompactSize.to_bytes ⟨inputs.length⟩).length -
                  ((inputs.map TransactionInput.to_bytes).flatten).length) := by
          rw [List.take_append_eq_append_take, List.take_of_length_le hc3]
        rw [htk2]
        have hnl : ¬((toLE 4 version ++ (CompactSize.to_bytes ⟨inputs.length⟩ ++
            ((inputs.map TransactionInput.to_bytes).flatten ++
              (toLE 4 lock_time).take
                (k - 4 - (CompactSize.to_bytes ⟨inputs.length⟩).length -
                  ((inputs.map TransactionInput.to_bytes).flatten).length)))).length < 4) := by
          simp only [List.length_append, toLE_length]; omega
        have hdrop4 : (toLE 4 version ++ (CompactSize.to_bytes ⟨inputs.length⟩ ++
            ((inputs.map TransactionInput.to_bytes).flatten ++
              (toLE 4 lock_time).take
                (k - 4 - (CompactSize.to_bytes ⟨inputs.length⟩).length -
                  ((inputs.map TransactionInput.to_bytes).flatten).length)))).drop 4 =
            CompactSize.to_bytes ⟨inputs.length⟩ ++
              ((inputs.map TransactionInput.to_bytes).flatten ++
                (toLE 4 lock_time).take
                  (k - 4 - (CompactSize.to_bytes ⟨inputs.length⟩).length -
                    ((inputs.map TransactionInput.to_bytes).flatten).length)) :=
          List.drop_left' (toLE_length 4 version)
        have hcs : CompactSize.from_bytes ((toLE 4 version ++
            (CompactSize.to_bytes ⟨inputs.length⟩ ++
              ((inputs.map TransactionInput.to_bytes).flatten ++
                (toLE 4 lock_time).take
                  (k - 4 - (CompactSize.to_bytes ⟨inputs.length⟩).length -
                    ((inputs.map TransactionInput.to_bytes).flatten).length)))).drop 4) =
            DResult.ok ⟨inputs.length⟩ (CompactSize.to_bytes ⟨inputs.length⟩).length := by
          rw [hdrop4]
          exact compactSize_decode_encode_extra _ hcnt' _
        have hdropcs : (toLE 4 version ++ (CompactSize.to_bytes ⟨inputs.length⟩ ++
            ((inputs.map TransactionInput.to_bytes).flatten ++
              (toLE 4 lock_time).take
                (k - 4 - (CompactSize.to_bytes ⟨inputs.length⟩).length -
                  ((inputs.map TransactionInput.to_bytes).flatten).length)))).drop
            (4 + (CompactSize.to_bytes ⟨inputs.length⟩).length) =
            (inputs.map TransactionInput.to_bytes).flatten ++
              (toLE 4 lock_time).take
                (k - 4 - (CompactSize.to_bytes ⟨inputs.length⟩).length -
                  ((inputs.map TransactionInput.to_bytes).flatten).length) := by
          rw [← List.drop_drop, hdrop4]
          exact List.drop_left' rfl
        have hdi := decodeInputs_append inputs hin'
          ((toLE 4 lock_time).take
            (k - 4 - (CompactSize.to_bytes ⟨inputs.length⟩).length -
              ((inputs.map TransactionInput.to_bytes).flatten).length)) _ _ hdropcs
        have hflc : (toLE 4 version ++ (CompactSize.to_bytes ⟨inputs.length⟩ ++
            ((inputs.map TransactionInput.to_bytes).flatten ++
              (toLE 4 lock_time).take
                (k - 4 - (CompactSize.to_bytes ⟨inputs.length⟩).length -
                  ((inputs.map TransactionInput.to_bytes).flatten).length)))).length <
            4 + (CompactSize.to_bytes ⟨inputs.length⟩).length +
              ((inputs.map TransactionInput.to_bytes).flatten).length + 4 := by
          simp only [List.length_append, List.length_take, toLE_length]
          omega
        simp only [BitcoinTransaction.from_bytes, hnl, if_false, hcs, hdi]
        rw [if_pos hflc]

/-! ### Txid text serialization (hex) -/

/-- The lowercase hex digit for nibble `n < 16`, by character code:
48 is the code of the zero digit, 87 + 10 = 97 that of the first letter. -/
def hexDigitOfNat (n : Nat) : Char :=
  if n < 10 then Char.ofNat (48 + n) else Char.ofNat (87 + n)

/-- The sixteen lowercase hex digits, the output alphabet of `hex::encode`. -/
def lowerHexDigits : List Char := (List.range 16).map hexDigitOfNat

/-- Modelled from the hex crate (an external dependency of `src/lib.rs`):
`hex::encode` writes each byte as two lowercase hex digits, high nibble
first. -/
def hexEncode : List Nat → List Char
  | [] => []
  | b :: rest => hexDigitOfNat (b / 16) :: hexDigitOfNat (b % 16) :: hexEncode rest

/-- Value of one hex digit character, by character code (48-57 are the
decimal digits, 97-102 the lowercase and 65-70 the uppercase letters;
`hex::decode` accepts both letter cases). -/
def hexVal (c : Char) : Option Nat :=
  let n := c.toNat
  if 48 ≤ n ∧ n ≤ 57 then some (n - 48)
  else if 97 ≤ n ∧ n ≤ 102 then some (n - 87)
  else if 65 ≤ n ∧ n ≤ 70 then some (n - 55)
  else none

/-- Modelled from the hex crate: `hex::decode` fails on odd length or any
non-hex character, otherwise pairs digits into bytes, high nibble first. -/
def hexDecode : List Char → Option (List Nat)
  | [] => some []
  | [_] => none
  | c1 :: c2 :: rest =>
    match hexVal c1, hexVal c2, hexDecode rest with
    | some hi, some lo, some bs => some ((16 * hi + lo) :: bs)
    | _, _, _ => none

/-- `impl Serialize for Txid`: `serializer.serialize_str(&hex::encode(self.0))`,
modelled at the string level as the character sequence written. -/
def Txid.serialize (t : Txid) : List Char := hexEncode t.bytes

/-- `impl Deserialize for Txid`: read a string, `hex::decode` it
(propagating its error), then require exactly 32 decoded bytes.  The
serde error values are abstracted to `none`. -/
def Txid.deserialize (s : List Char) : Option Txid :=
  match hexDecode s with
  | none => none
  | some bs => if bs.length = 32 then some ⟨bs⟩ else none

theorem hexEncode_length (l : List Nat) : (hexEncode l).length = 2 * l.length := by
  induction l with
  | nil => rfl
  | cons b rest ih =>
    simp only [hexEncode, List.length_cons, ih]
    omega

theorem hexDigitOfNat_mem (n : Nat) (h : n < 16) : hexDigitOfNat n ∈ lowerHexDigits :=
  List.mem_map.mpr ⟨n, List.mem_range.mpr h, rfl⟩

theorem hexEncode_mem (l : List Nat) (h : bytesWF l) :
    ∀ c ∈ hexEncode l, c ∈ lowerHexDigits := by
  induction l with
  | nil => intro c hc; simp [hexEncode] at hc
  | cons b rest ih =>
    intro c hc
    have hb : b < 256 := h b (by simp)
    have hrest : bytesWF rest := fun x hx => h x (by simp [hx])
    simp only [hexEncode, List.mem_cons] at hc
    rcases hc with hc | hc | hc
    · exact hc ▸ hexDigitOfNat_mem _ (by omega)
    · exact hc ▸ hexDigitOfNat_mem _ (by omega)
    · exact ih hrest c hc

theorem hexVal_hexDigitOfNat (n : Nat) (h : n < 16) :
    hexVal (hexDigitOfNat n) = some n := by
  interval_cases n <;> decide

theorem hexDecode_hexEncode (l : List Nat) (h : bytesWF l) :
    hexDecode (hexEncode l) = some l := by
  induction l with
  | nil => rfl
  | cons b rest ih =>
    have hb : b < 256 := h b (by simp)
    have hrest : bytesWF rest := fun x hx => h x (by simp [hx])
    have hhi : hexVal (hexDigitOfNat (b / 16)) = some (b / 16) :=
      hexVal_hexDigitOfNat _ (by omega)
    have hlo : hexVal (hexDigitOfNat (b % 16)) = some (b % 16) :=
      hexVal_hexDigitOfNat _ (by omega)
    simp only [hexEncode, hexDecode, hhi, hlo, ih hrest]
    have hdm : 16 * (b / 16) + b % 16 = b := by omega
    rw [hdm]

/-! ### Claim theorems -/

/-- C1: for every well-formed value `V` of each of the five entity types
(CompactSize, OutPoint, Script, TransactionInput, BitcoinTransaction),
`from_bytes (to_bytes V)` returns `Ok((V, consumed))` with `consumed`
equal to the length of `to_bytes V`. -/
theorem C1_roundtrip :
    (∀ cs : CompactSize, cs.WF →
      CompactSize.from_bytes cs.to_bytes = DResult.ok cs cs.to_bytes.length) ∧
    (∀ o : OutPoint, o.WF →
      OutPoint.from_bytes o.to_bytes = DResult.ok o o.to_bytes.length) ∧
    (∀ s : Script, s.WF →
      Script.from_bytes s.to_bytes = DResult.ok s s.to_bytes.length) ∧
    (∀ i : TransactionInput, i.WF →
      TransactionInput.from_bytes i.to_bytes = DResult.ok i i.to_bytes.length) ∧
    (∀ tx : BitcoinTransaction, tx.WF →
      BitcoinTransaction.from_bytes tx.to_bytes = DResult.ok tx tx.to_bytes.length) := by
  refine ⟨fun cs h => ?_, fun o h => ?_, fun s h => ?_, fun i h => ?_, fun tx h => ?_⟩
  · simpa using compactSize_decode_encode_extra cs h []
  · have hol : o.to_bytes.length = 36 := outPoint_encode_length o h.1.1
    rw [hol]
    simpa using outPoint_decode_encode_extra o h []
  · simpa using script_decode_encode_extra s h []
  · simpa using txInput_decode_encode_extra i h []
  · simpa using txn_decode_encode_extra tx h []

/-- Concrete instantiation of C1 on each of the five entity types. -/
theorem C1_roundtrip_witness :
    ((⟨0x10000⟩ : CompactSize).WF ∧
      CompactSize.from_bytes (CompactSize.to_bytes ⟨0x10000⟩) =
        DResult.ok ⟨0x10000⟩ (CompactSize.to_bytes ⟨0x10000⟩).length) ∧
    ((⟨⟨List.replicate 32 0x11⟩, 5⟩ : OutPoint).WF ∧
      OutPoint.from_bytes (OutPoint.to_bytes ⟨⟨List.replicate 32 0x11⟩, 5⟩) =
        DResult.ok ⟨⟨List.replicate 32 0x11⟩, 5⟩
          (OutPoint.to_bytes ⟨⟨List.replicate 32 0x11⟩, 5⟩).length) ∧
    ((⟨[7, 8]⟩ : Script).WF ∧
      Script.from_bytes (Script.to_bytes ⟨[7, 8]⟩) =
        DResult.ok ⟨[7, 8]⟩ (Script.to_bytes ⟨[7, 8]⟩).length) ∧
    ((⟨⟨⟨List.replicate 32 0x11⟩, 5⟩, ⟨[7, 8]⟩, 0xFFFFFFFF⟩ : TransactionInput).WF ∧
      TransactionInput.from_bytes
          (TransactionInput.to_bytes ⟨⟨⟨List.replicate 32 0x11⟩, 5⟩, ⟨[7, 8]⟩, 0xFFFFFFFF⟩) =
        DResult.ok ⟨⟨⟨List.replicate 32 0x11⟩, 5⟩, ⟨[7, 8]⟩, 0xFFFFFFFF⟩
          (TransactionInput.to_bytes
            ⟨⟨⟨List.replicate 32 0x11⟩, 5⟩, ⟨[7, 8]⟩, 0xFFFFFFFF⟩).length) ∧
    ((⟨1, [⟨⟨⟨List.replicate 32 0x11⟩, 5⟩, ⟨[7, 8]⟩, 0xFFFFFFFF⟩], 0⟩ : BitcoinTransaction).WF ∧
      BitcoinTransaction.from_bytes
          (BitcoinTransaction.to_bytes
            ⟨1, [⟨⟨⟨List.replicate 32 0x11⟩, 5⟩, ⟨[7, 8]⟩, 0xFFFFFFFF⟩], 0⟩) =
        DResult.ok ⟨1, [⟨⟨⟨List.replicate 32 0x11⟩, 5⟩, ⟨[7, 8]⟩, 0xFFFFFFFF⟩], 0⟩
          (BitcoinTransaction.to_bytes
            ⟨1, [⟨⟨⟨List.replicate 32 0x11⟩, 5⟩, ⟨[7, 8]⟩, 0xFFFFFFFF⟩], 0⟩).length) :=
  ⟨⟨by decide, C1_roundtrip.1 _ (by decide)⟩,
   ⟨by decide, C1_roundtrip.2.1 _ (by decide)⟩,
   ⟨by decide, C1_roundtrip.2.2.1 _ (by decide)⟩,
   ⟨by decide, C1_roundtrip.2.2.2.1 _ (by decide)⟩,
   ⟨by decide, C1_roundtrip.2.2.2.2 _ (by decide)⟩⟩

/-- C2: for every well-formed value `V` of each of the five entity types and
every strict prefix of `to_bytes V` (including the empty sequence), the
corresponding `from_bytes` fails with `InsufficientBytes` — it never
succeeds and never panics. -/
theorem C2_truncation :
    (∀ cs : CompactSize, cs.WF → ∀ k, k < cs.to_bytes.length →
      CompactSize.from_bytes (cs.to_bytes.take k) = DResult.err BitcoinError.insufficientBytes) ∧
    (∀ o : OutPoint, o.WF → ∀ k, k < o.to_bytes.length →
      OutPoint.from_bytes (o.to_bytes.take k) = DResult.err BitcoinError.insufficientBytes) ∧
    (∀ s : Script, s.WF → ∀ k, k < s.to_bytes.length →
      Script.from_bytes (s.to_bytes.take k) = DResult.err BitcoinError.insufficientBytes) ∧
    (∀ i : TransactionInput, i.WF → ∀ k, k < i.to_bytes.length →
      TransactionInput.from_bytes (i.to_bytes.take k) =
        DResult.err BitcoinError.insufficientBytes) ∧
    (∀ tx : BitcoinTransaction, tx.WF → ∀ k, k < tx.to_bytes.length →
      BitcoinTransaction.from_bytes (tx.to_bytes.take k) =
        DResult.err BitcoinError.insufficientBytes) := by
  refine ⟨fun cs _ k hk => compactSize_decode_take cs k hk,
    fun o h k hk => ?_,
    fun s h k hk => script_decode_take s h k hk,
    fun i h k hk => txInput_decode_take i h k hk,
    fun tx h k hk => txn_decode_take tx h k hk⟩
  have hol : o.to_bytes.length = 36 := outPoint_encode_length o h.1.1
  exact outPoint_decode_take o h k (hol ▸ hk)

/-- Concrete instantiation of C2 on a Script and a BitcoinTransaction. -/
theorem C2_truncation_witness :
    ((⟨[7, 8]⟩ : Script).WF ∧ 2 < (Script.to_bytes ⟨[7, 8]⟩).length ∧
      Script.from_bytes ((Script.to_bytes ⟨[7, 8]⟩).take 2) =
        DResult.err BitcoinError.insufficientBytes) ∧
    ((⟨1, [], 0⟩ : BitcoinTransaction).WF ∧
      8 < (BitcoinTransaction.to_bytes ⟨1, [], 0⟩).length ∧
      BitcoinTransaction.from_bytes ((BitcoinTransaction.to_bytes ⟨1, [], 0⟩).take 8) =
        DResult.err BitcoinError.insufficientBytes) :=
  ⟨⟨by decide, by decide, C2_truncation.2.2.1 ⟨[7, 8]⟩ (by decide) 2 (by decide)⟩,
   ⟨by decide, by decide, C2_truncation.2.2.2.2 ⟨1, [], 0⟩ (by decide) 8 (by decide)⟩⟩

/-- C3 (failing input for the claim): on this 50-byte input,
`BitcoinTransaction::from_bytes` decodes the CompactSize input count 1
after the version, but then neither returns a transaction nor returns an
error: the nested `Script::from_bytes` call panics on `usize` overflow,
so the claimed dichotomy (transaction with exactly `n` inputs, or an
error) does not hold. -/
theorem C3_count_loop_panics :
    CompactSize.from_bytes ((([0, 0, 0, 0] ++ [1] ++ List.replicate 36 0 ++
        List.replicate 9 0xFF) : List Nat).drop 4) = DResult.ok ⟨1⟩ 1 ∧
    BitcoinTransaction.from_bytes (([0, 0, 0, 0] ++ [1] ++ List.replicate 36 0 ++
        List.replicate 9 0xFF) : List Nat) = DResult.panic := by
  constructor
  · rfl
  · rfl

/-- C4: the case analysis of `CompactSize::from_bytes`: empty input fails
with `InsufficientBytes`; a first byte ≤ 0xFC is returned as the value with
consumed 1; markers 0xFD/0xFE/0xFF require 3/5/9 total bytes, failing with
`InsufficientBytes` on fewer, and otherwise return the next 2/4/8 bytes
read little-endian, with consumed 3/5/9. -/
theorem C4_compactsize_decode_cases :
    CompactSize.from_bytes [] = DResult.err BitcoinError.insufficientBytes ∧
    (∀ (b0 : Nat) (rest : List Nat), b0 ≤ 0xFC →
      CompactSize.from_bytes (b0 :: rest) = DResult.ok ⟨b0⟩ 1) ∧
    (∀ rest : List Nat,
      (((0xFD : Nat) :: rest).length < 3 →
        CompactSize.from_bytes (0xFD :: rest) = DResult.err BitcoinError.insufficientBytes) ∧
      (3 ≤ ((0xFD : Nat) :: rest).length →
        CompactSize.from_bytes (0xFD :: rest) = DResult.ok ⟨fromLE (rest.take 2)⟩ 3)) ∧
    (∀ rest : List Nat,
      (((0xFE : Nat) :: rest).length < 5 →
        CompactSize.from_bytes (0xFE :: rest) = DResult.err BitcoinError.insufficientBytes) ∧
      (5 ≤ ((0xFE : Nat) :: rest).length →
        CompactSize.from_bytes (0xFE :: rest) = DResult.ok ⟨fromLE (rest.take 4)⟩ 5)) ∧
    (∀ rest : List Nat,
      (((0xFF : Nat) :: rest).length < 9 →
        CompactSize.from_bytes (0xFF :: rest) = DResult.err BitcoinError.insufficientBytes) ∧
      (9 ≤ ((0xFF : Nat) :: rest).length →
        CompactSize.from_bytes (0xFF :: rest) = DResult.ok ⟨fromLE (rest.take 8)⟩ 9)) := by
  refine ⟨rfl, fun b0 rest h => by simp [CompactSize.from_bytes, h], ?_, ?_, ?_⟩
  · intro rest
    constructor
    · intro h
      have h' : rest.length + 1 < 3 := by simpa using h
      simp [CompactSize.from_bytes, h']
    · intro h
      have h' : ¬(rest.length + 1 < 3) := by simp at h; omega
      simp [CompactSize.from_bytes, h']
  · intro rest
    constructor
    · intro h
      have h' : rest.length + 1 < 5 := by simpa using h
      simp [CompactSize.from_bytes, h']
    · intro h
      have h' : ¬(rest.length + 1 < 5) := by simp at h; omega
      simp [CompactSize.from_bytes, h']
  · intro rest
    constructor
    · intro h
      have h' : rest.length + 1 < 9 := by simpa using h
      simp [CompactSize.from_bytes, h']
    · intro h
      have h' : ¬(rest.length + 1 < 9) := by simp at h; omega
      simp [CompactSize.from_bytes, h']

/-- Concrete instantiation of C4 on each reachable case shape. -/
theorem C4_compactsize_decode_cases_witness :
    ((7 : Nat) ≤ 0xFC ∧ CompactSize.from_bytes [7] = DResult.ok ⟨7⟩ 1) ∧
    (((0xFD : Nat) :: [1]).length < 3 ∧
      CompactSize.from_bytes (0xFD :: [1]) = DResult.err BitcoinError.insufficientBytes) ∧
    (3 ≤ ((0xFD : Nat) :: [1, 2]).length ∧
      CompactSize.from_bytes (0xFD :: [1, 2]) = DResult.ok ⟨fromLE ([1, 2].take 2)⟩ 3) ∧
    (9 ≤ ((0xFF : Nat) :: [1, 2, 3, 4, 5, 6, 7, 8]).length ∧
      CompactSize.from_bytes (0xFF :: [1, 2, 3, 4, 5, 6, 7, 8]) =
        DResult.ok ⟨fromLE ([1, 2, 3, 4, 5, 6, 7, 8].take 8)⟩ 9) :=
  ⟨⟨by decide, C4_compactsize_decode_cases.2.1 7 [] (by decide)⟩,
   ⟨by decide, (C4_compactsize_decode_cases.2.2.1 [1]).1 (by decide)⟩,
   ⟨by decide, (C4_compactsize_decode_cases.2.2.1 [1, 2]).2 (by decide)⟩,
   ⟨by decide, (C4_compactsize_decode_cases.2.2.2.2 [1, 2, 3, 4, 5, 6, 7, 8]).2 (by decide)⟩⟩

/-- C5: `CompactSize::to_bytes` produces the shortest of the four widths:
the bare byte for v ≤ 0xFC, marker 0xFD/0xFE/0xFF plus the 2/4/8-byte
little-endian payload (which reads back to v) on the next three ranges. -/
theorem C5_shortest_encoding (v : Nat) (h : v < 2 ^ 64) :
    (v ≤ 0xFC → CompactSize.to_bytes ⟨v⟩ = [v]) ∧
    (0xFC < v → v ≤ 0xFFFF → CompactSize.to_bytes ⟨v⟩ = 0xFD :: toLE 2 v ∧
      (CompactSize.to_bytes ⟨v⟩).length = 3 ∧ fromLE (toLE 2 v) = v) ∧
    (0xFFFF < v → v ≤ 0xFFFFFFFF → CompactSize.to_bytes ⟨v⟩ = 0xFE :: toLE 4 v ∧
      (CompactSize.to_bytes ⟨v⟩).length = 5 ∧ fromLE (toLE 4 v) = v) ∧
    (0xFFFFFFFF < v → CompactSize.to_bytes ⟨v⟩ = 0xFF :: toLE 8 v ∧
      (CompactSize.to_bytes ⟨v⟩).length = 9 ∧ fromLE (toLE 8 v) = v) := by
  refine ⟨fun h1 => ?_, fun h1 h2 => ?_, fun h1 h2 => ?_, fun h1 => ?_⟩
  · simp [CompactSize.to_bytes, h1, Nat.mod_eq_of_lt (show v < 256 by omega)]
  · have hn1 : ¬(v ≤ 0xFC) := by omega
    exact ⟨by simp [CompactSize.to_bytes, hn1, h2],
      by simp [CompactSize.to_bytes, hn1, h2, toLE_length],
      fromLE_toLE 2 v (by norm_num; omega)⟩
  · have hn1 : ¬(v ≤ 0xFC) := by omega
    have hn2 : ¬(v ≤ 0xFFFF) := by omega
    exact ⟨by simp [CompactSize.to_bytes, hn1, hn2, h2],
      by simp [CompactSize.to_bytes, hn1, hn2, h2, toLE_length],
      fromLE_toLE 4 v (by norm_num; omega)⟩
  · have hn1 : ¬(v ≤ 0xFC) := by omega
    have hn2 : ¬(v ≤ 0xFFFF) := by omega
    have hn3 : ¬(v ≤ 0xFFFFFFFF) := by omega
    exact ⟨by simp [CompactSize.to_bytes, hn1, hn2, hn3],
      by simp [CompactSize.to_bytes, hn1, hn2, hn3, toLE_length],
      fromLE_toLE 8 v (by norm_num; omega)⟩

/-- Concrete instantiation of C5 at each boundary of the four ranges. -/
theorem C5_shortest_encoding_witness :
    ((0xFC : Nat) ≤ 0xFC ∧ CompactSize.to_bytes ⟨0xFC⟩ = [0xFC]) ∧
    ((0xFC : Nat) < 0xFD ∧ (0xFD : Nat) ≤ 0xFFFF ∧
      (CompactSize.to_bytes ⟨0xFD⟩ = 0xFD :: toLE 2 0xFD ∧
        (CompactSize.to_bytes ⟨0xFD⟩).length = 3 ∧ fromLE (toLE 2 0xFD) = 0xFD)) ∧
    ((0xFFFF : Nat) < 0x10000 ∧ (0x10000 : Nat) ≤ 0xFFFFFFFF ∧
      (CompactSize.to_bytes ⟨0x10000⟩ = 0xFE :: toLE 4 0x10000 ∧
        (CompactSize.to_bytes ⟨0x10000⟩).length = 5 ∧ fromLE (toLE 4 0x10000) = 0x10000)) ∧
    ((0xFFFFFFFF : Nat) < 0x100000000 ∧
      (CompactSize.to_bytes ⟨0x100000000⟩ = 0xFF :: toLE 8 0x100000000 ∧
        (CompactSize.to_bytes ⟨0x100000000⟩).length = 9 ∧
        fromLE (toLE 8 0x100000000) = 0x100000000)) :=
  ⟨⟨by decide, (C5_shortest_encoding 0xFC (by decide)).1 (by decide)⟩,
   ⟨by decide, by decide, (C5_shortest_encoding 0xFD (by decide)).2.1 (by decide) (by decide)⟩,
   ⟨by decide, by decide,
     (C5_shortest_encoding 0x10000 (by decide)).2.2.1 (by decide) (by decide)⟩,
   ⟨by decide, (C5_shortest_encoding 0x100000000 (by decide)).2.2.2 (by decide)⟩⟩

/-- C6 (failing input for the claim): on `[0xFF; 9]` the CompactSize prefix
decodes with value `u64::MAX` and width 9, and the 9-byte input is shorter
than `prefix_len + declared_len`, so by the claim `Script::from_bytes` must
return `Err(InsufficientBytes)`; instead the Rust code panics, because
`prefix_len + (len_prefix.value as usize)` overflows `usize` (debug mode
panics at the addition; release mode wraps to 8 and panics at
`bytes[9..8]`). -/
theorem C6_script_overflow_panic :
    CompactSize.from_bytes (List.replicate 9 0xFF) = DResult.ok ⟨0xFFFFFFFFFFFFFFFF⟩ 9 ∧
    (List.replicate 9 (0xFF : Nat)).length < 9 + 0xFFFFFFFFFFFFFFFF ∧
    Script.from_bytes (List.replicate 9 0xFF) = DResult.panic := by
  refine ⟨by rfl, by decide, by rfl⟩

/-- C7: for every non-empty byte slice (members below 256, the `u8` value
range), `CompactSize::from_bytes` never returns `Err(InvalidFormat)`: the
four decode cases cover every reachable first byte. -/
theorem C7_invalid_format_unreachable (bytes : List Nat) (hne : bytes ≠ [])
    (hwf : bytesWF bytes) :
    CompactSize.from_bytes bytes ≠ DResult.err BitcoinError.invalidFormat := by
  cases bytes with
  | nil => exact absurd rfl hne
  | cons b0 rest =>
    have hb : b0 < 256 := hwf b0 (by simp)
    simp only [CompactSize.from_bytes]
    split_ifs <;> simp
    all_goals omega

/-- Concrete instantiation of C7 on the one-byte input [0xFF]. -/
theorem C7_invalid_format_unreachable_witness :
    ([0xFF] : List Nat) ≠ [] ∧ bytesWF [0xFF] ∧
    CompactSize.from_bytes [0xFF] ≠ DResult.err BitcoinError.invalidFormat :=
  ⟨by decide, by decide, C7_invalid_format_unreachable [0xFF] (by decide) (by decide)⟩

/-- C8: the over-long encoding [0xFE, 0x05, 0, 0, 0] (width 5 for the value
5, whose minimal encoding is the single byte [0x05]) is accepted: decode
returns value 5 with all 5 bytes consumed rather than rejecting it. -/
theorem C8_non_canonical_accepted :
    CompactSize.from_bytes [0xFE, 0x05, 0x00, 0x00, 0x00] = DResult.ok ⟨5⟩ 5 ∧
    CompactSize.to_bytes ⟨5⟩ = [0x05] := by
  constructor
  · rfl
  · rfl

/-- C9: Txid text serialization is the lowercase hexadecimal string of
exactly 64 characters representing the 32 identifier bytes, and text
deserialization of a string succeeds exactly when the string hex-decodes
to exactly 32 bytes. -/
theorem C9_txid_hex (t : Txid) (h : t.WF) (s : List Char) :
    (Txid.serialize t).length = 64 ∧
    (∀ c ∈ Txid.serialize t, c ∈ lowerHexDigits) ∧
    hexDecode (Txid.serialize t) = some t.bytes ∧
    ((∃ u, Txid.deserialize s = some u) ↔
      ∃ bs, hexDecode s = some bs ∧ bs.length = 32) := by
  obtain ⟨hlen, hwf⟩ := h
  refine ⟨?_, fun c hc => hexEncode_mem _ hwf c hc, hexDecode_hexEncode _ hwf, ?_⟩
  · rw [Txid.serialize, hexEncode_length, hlen]
  · unfold Txid.deserialize
    cases hd : hexDecode s with
    | none => simp
    | some bs =>
      by_cases hb : bs.length = 32
      · simp [hb]
      · simp [hb]

/-- Concrete instantiation of C9 at the all-zero Txid and the string "00". -/
theorem C9_txid_hex_witness :
    (⟨List.replicate 32 0⟩ : Txid).WF ∧
    ((Txid.serialize ⟨List.replicate 32 0⟩).length = 64 ∧
      (∀ c ∈ Txid.serialize ⟨List.replicate 32 0⟩, c ∈ lowerHexDigits) ∧
      hexDecode (Txid.serialize ⟨List.replicate 32 0⟩) =
        some (⟨List.replicate 32 0⟩ : Txid).bytes ∧
      ((∃ u, Txid.deserialize ['0', '0'] = some u) ↔
        ∃ bs, hexDecode ['0', '0'] = some bs ∧ bs.length = 32)) :=
  ⟨by decide, C9_txid_hex ⟨List.replicate 32 0⟩ (by decide) ['0', '0']⟩

/-- C10 (failing input for the claim): `TransactionInput::from_bytes` on 36
zero bytes followed by `[0xFF; 9]` panics — the nested `Script::from_bytes`
total-length addition `prefix_len + declared_len` overflows `usize` — so
the decoders are not total over arbitrary input. -/
theorem C10_decoder_panics :
    TransactionInput.from_bytes (List.replicate 36 0 ++ List.replicate 9 0xFF) =
      DResult.panic := by
  rfl
